import Mathlib

/-!
Verification of the `LocalAgreementProcessor` (timestamp-aware variant) of the
Voice-notes repository: the streaming hypothesis-reconciliation core that turns
repeated, overlapping speech-recognizer hypotheses into a stable transcript.

The JavaScript class is embedded shallowly: word times (`f64` in the source)
become exact rationals, the mutable class instance becomes an explicit
`ProcState` record threaded through the operations, and `toLowerCase`
comparisons become comparisons of character lists mapped through
`Char.toLower`.
-/

namespace VoiceNotes

/-- A word unit: `{text, start, end}` in the source.  `end` is a Lean keyword,
so the field is called `end_`. -/
structure Word where
  text : String
  start : ℚ
  end_ : ℚ
deriving Repr, DecidableEq

/-- JavaScript `s.toLowerCase()` (ASCII case folding), expressed through the
character data so that it evaluates on concrete inputs. -/
def jsToLower (s : String) : String :=
  ⟨s.data.map Char.toLower⟩

/-- JavaScript `array.join(" ")`. -/
def joinSpace (l : List String) : String :=
  String.intercalate " " l

/-- `words.map(w => w.text).join(" ")` — used by `_buildResult`,
`getCommittedText` and the n-gram comparison. -/
def joinText (ws : List Word) : String :=
  joinSpace (ws.map Word.text)

/-- The state of one `LocalAgreementProcessor` instance (timestamp-aware
class, the fields set by its constructor / `reset()`). -/
structure ProcState where
  committedInBuffer : List Word
  buffer : List Word
  new : List Word
  lastCommittedTime : ℚ
  lastCommittedWord : Option String
  allCommitted : List Word
deriving Repr, DecidableEq

/-- `reset()` / the constructor: every field empty or zero. -/
def resetState : ProcState :=
  { committedInBuffer := []
    buffer := []
    new := []
    lastCommittedTime := 0
    lastCommittedWord := none
    allCommitted := [] }

/-- `this.MAX_NGRAM_SIZE = 5`. -/
def MAX_NGRAM_SIZE : Nat := 5

/-- The words of `newWords` that survive the stale filter in `_insert`:
`newWords.filter(w => w.start > this.lastCommittedTime - 0.1)`. -/
def staleFiltered (s : ProcState) (newWords : List Word) : List Word :=
  newWords.filter (fun w => s.lastCommittedTime - 1/10 < w.start)

/-- The n-gram comparison body of `_insert`'s loop at a given `i`: the joined
text of the last `i` words of `committedInBuffer` (`slice(-i)`) against the
joined text of the first `i` words of `new` (`slice(0, i)`), both lowercased. -/
def ngramMatchAt (committedInBuffer neu : List Word) (i : Nat) : Bool :=
  jsToLower (joinText (committedInBuffer.drop (committedInBuffer.length - i)))
    == jsToLower (joinText (neu.take i))

/-- The `for (let i = 1; i <= bound; i++) { ... break; }` scan of `_insert`:
the first `i` in `1..bound` whose n-gram comparison succeeds, if any. -/
def ngramScan (committedInBuffer neu : List Word) (bound : Nat) : Option Nat :=
  (List.range' 1 bound).find? (ngramMatchAt committedInBuffer neu)

/-- `_insert(newWords)`: stale-word filtering followed by n-gram boundary
de-duplication; the result is stored in `this.new`. -/
def insert (s : ProcState) (newWords : List Word) : ProcState :=
  let filtered := staleFiltered s newWords
  let new2 :=
    match filtered with
    | [] => filtered
    | firstWord :: _ =>
      if |firstWord.start - s.lastCommittedTime| < 1 then
        if 0 < s.committedInBuffer.length then
          match ngramScan s.committedInBuffer filtered
              (min (min s.committedInBuffer.length filtered.length) MAX_NGRAM_SIZE) with
          | some i => filtered.drop i
          | none => filtered
        else filtered
      else filtered
  { s with new := new2 }

/-- The `while` loop of `_flush()`: walk `new` and `buffer` from the front in
lock-step while the front texts match case-insensitively; returns the commit
list and what remains of `new`. -/
def flushLoop : List Word → List Word → List Word × List Word
  | nw :: nrest, bw :: brest =>
    if jsToLower nw.text == jsToLower bw.text then
      let p := flushLoop nrest brest
      (nw :: p.1, p.2)
    else ([], nw :: nrest)
  | neu, _ => ([], neu)

/-- `_flush()`: run the agreement loop, move the remaining `new` into
`buffer`, append the commit list to `committedInBuffer` and `allCommitted`,
and advance `lastCommittedTime` / `lastCommittedWord` per committed word
(net effect: the last committed word's `end` / `text`). -/
def flush (s : ProcState) : ProcState × List Word :=
  let p := flushLoop s.new s.buffer
  ({ s with
      buffer := p.2
      new := []
      committedInBuffer := s.committedInBuffer ++ p.1
      allCommitted := s.allCommitted ++ p.1
      lastCommittedTime :=
        match p.1.getLast? with
        | some w => w.end_
        | none => s.lastCommittedTime
      lastCommittedWord :=
        match p.1.getLast? with
        | some w => some w.text
        | none => s.lastCommittedWord }
  , p.1)

/-- The `{committed, tentative}` record returned by `process` and
`finalize`. -/
structure TranscriptResult where
  committed : String
  tentative : String
deriving Repr, DecidableEq

/-- `_buildResult()`. -/
def buildResult (s : ProcState) : TranscriptResult :=
  { committed := joinText s.allCommitted
    tentative := joinText s.buffer }

/-- Shift a chunk by the window offset: `{text, start+off, end+off}`. -/
def shiftWord (off : ℚ) (c : Word) : Word :=
  { text := c.text, start := c.start + off, end_ := c.end_ + off }

/-- `process(chunks, audioWindowStart)`: early-return on an empty (or absent)
hypothesis, otherwise offset-shift, `_insert`, `_flush`, `_buildResult`. -/
def process (s : ProcState) (chunks : List Word) (audioWindowStart : ℚ) :
    TranscriptResult × ProcState :=
  match chunks with
  | [] => (buildResult s, s)
  | _ :: _ =>
    let s1 := insert s (chunks.map (shiftWord audioWindowStart))
    let s2 := (flush s1).1
    (buildResult s2, s2)

/-- `popCommitted(time)`: `while` the front of `committedInBuffer` has
`end <= time`, `shift()` it off. -/
def popCommitted (s : ProcState) (time : ℚ) : ProcState :=
  { s with committedInBuffer := s.committedInBuffer.dropWhile (fun w => w.end_ ≤ time) }

/-- `getCommittedText()`. -/
def getCommittedText (s : ProcState) : String :=
  joinText s.allCommitted

/-- One block of `finalize()`: push every word of `ws` onto `allCommitted`,
setting `lastCommittedTime` / `lastCommittedWord` at each word, then extend
`committedInBuffer` by `ws` (net effect of the source's per-word loop). -/
def finalizeWords (s : ProcState) (ws : List Word) : ProcState :=
  match ws.getLast? with
  | none => s
  | some w =>
    { s with
        allCommitted := s.allCommitted ++ ws
        committedInBuffer := s.committedInBuffer ++ ws
        lastCommittedTime := w.end_
        lastCommittedWord := some w.text }

/-- `finalize()`: commit everything left in `buffer`, then everything left in
`new`, clearing both, and return `_buildResult()`. -/
def finalize (s : ProcState) : TranscriptResult × ProcState :=
  let s1 := { finalizeWords s s.buffer with buffer := [] }
  let s2 := { finalizeWords s1 s1.new with new := [] }
  (buildResult s2, s2)

/-- One external operation on the processor, for stating invariants over
arbitrary call sequences. -/
inductive Op where
  | procOp (chunks : List Word) (off : ℚ)
  | finOp
  | popOp (t : ℚ)
deriving Repr

/-- Apply one operation to the state, discarding the returned result. -/
def applyOp (s : ProcState) : Op → ProcState
  | .procOp chunks off => (process s chunks off).2
  | .finOp => (finalize s).2
  | .popOp t => popCommitted s t

/-- Run a sequence of operations from a starting state. -/
def runOps (s : ProcState) (ops : List Op) : ProcState :=
  ops.foldl applyOp s

/-- Specification-side description of the agreement pass (step 4 of the
spec's algorithm): zip the current hypothesis with the previous one and take
the longest lock-step run of case-insensitive text matches from the front. -/
def agreeCommitSpec (neu buf : List Word) : List Word :=
  ((neu.zip buf).takeWhile (fun p => jsToLower p.1.text == jsToLower p.2.text)).map
    Prod.fst

/-- `this.SUFFIX_SIZE = 45` in the plain-text (legacy) variant of the
processor. -/
def SUFFIX_SIZE : Nat := 45

/-- Plain-text variant `tokenize(text)`: split on whitespace and drop empty
tokens. -/
def tokenize (text : String) : List String :=
  (text.split Char.isWhitespace).filter (fun w => 0 < w.length)

/-- Plain-text variant `_updateCommittedSuffix()`: the committed-suffix cache
is the last `SUFFIX_SIZE` (45) words of the committed text
(`words.slice(-SUFFIX_SIZE)`). -/
def updateCommittedSuffix (committedText : String) : List String :=
  (tokenize committedText).drop ((tokenize committedText).length - SUFFIX_SIZE)

/-! ### General lemmas about the embedding -/

/-- The agreement loop of `_flush` computes exactly the lock-step
specification, and leaves the corresponding tail of `new`. -/
theorem flushLoop_eq (neu : List Word) : ∀ buf : List Word,
    flushLoop neu buf =
      (agreeCommitSpec neu buf, neu.drop (agreeCommitSpec neu buf).length) := by
  induction neu with
  | nil => intro buf; cases buf <;> simp [flushLoop, agreeCommitSpec]
  | cons nw nrest ih =>
    intro buf
    cases buf with
    | nil => simp [flushLoop, agreeCommitSpec]
    | cons bw brest =>
      by_cases h : (jsToLower nw.text == jsToLower bw.text) = true
      · simp [flushLoop, agreeCommitSpec, h, ih brest]
      · simp [flushLoop, agreeCommitSpec, h]

/-- Words of the lock-step commit list come from the new hypothesis. -/
theorem agreeCommitSpec_mem {w : Word} {neu buf : List Word}
    (h : w ∈ agreeCommitSpec neu buf) : w ∈ neu := by
  simp only [agreeCommitSpec, List.mem_map] at h
  obtain ⟨p, hp, rfl⟩ := h
  exact (List.of_mem_zip ((List.takeWhile_sublist _).mem hp)).1

/-- `find?` over `[a, a+1, …, a+n-1]` returns the least element satisfying
the predicate. -/
theorem find?_range'_eq_some {p : Nat → Bool} :
    ∀ {n a i : Nat}, (List.range' a n).find? p = some i →
      p i = true ∧ a ≤ i ∧ i < a + n ∧ ∀ j, a ≤ j → j < i → p j = false := by
  intro n
  induction n with
  | zero => intro a i h; simp [List.range'] at h
  | succ n ih =>
    intro a i h
    rw [List.range'_succ] at h
    by_cases hpa : p a = true
    · rw [List.find?_cons_of_pos _ hpa] at h
      cases h
      exact ⟨hpa, Nat.le_refl _, by omega, fun j hj1 hj2 => absurd hj1 (by omega)⟩
    · rw [List.find?_cons_of_neg _ (by simp [hpa])] at h
      obtain ⟨h1, h2, h3, h4⟩ := ih h
      refine ⟨h1, by omega, by omega, ?_⟩
      intro j hj1 hj2
      rcases Nat.eq_or_lt_of_le hj1 with rfl | hlt
      · simpa using hpa
      · exact h4 j (by omega) hj2

/-- If `find?` over `[a, a+1, …, a+n-1]` fails, no element satisfies the
predicate. -/
theorem find?_range'_eq_none {p : Nat → Bool} :
    ∀ {n a : Nat}, (List.range' a n).find? p = none →
      ∀ j, a ≤ j → j < a + n → p j = false := by
  intro n
  induction n with
  | zero => intro a _ j h1 h2; omega
  | succ n ih =>
    intro a h j h1 h2
    rw [List.range'_succ] at h
    by_cases hpa : p a = true
    · rw [List.find?_cons_of_pos _ hpa] at h; cases h
    · rw [List.find?_cons_of_neg _ (by simp [hpa])] at h
      rcases Nat.eq_or_lt_of_le h1 with rfl | hlt
      · simpa using hpa
      · exact ih h j (by omega) (by omega)

/-- `_insert` touches only the `new` field. -/
theorem insert_frame (s : ProcState) (ws : List Word) :
    (insert s ws).buffer = s.buffer ∧ (insert s ws).allCommitted = s.allCommitted ∧
    (insert s ws).lastCommittedTime = s.lastCommittedTime ∧
    (insert s ws).committedInBuffer = s.committedInBuffer :=
  ⟨rfl, rfl, rfl, rfl⟩

/-- After `_insert`, `new` is a tail of the stale-filtered input (the n-gram
de-duplication only ever removes words from the front). -/
theorem insert_new_drop (s : ProcState) (ws : List Word) :
    ∃ k, (insert s ws).new = (staleFiltered s ws).drop k := by
  simp only [insert]
  cases hf : staleFiltered s ws with
  | nil => exact ⟨0, by simp⟩
  | cons fw rest =>
    by_cases h1 : |fw.start - s.lastCommittedTime| < 1
    · by_cases h2 : 0 < s.committedInBuffer.length
      · cases hs : ngramScan s.committedInBuffer (fw :: rest)
            (min (min s.committedInBuffer.length (fw :: rest).length) MAX_NGRAM_SIZE) with
        | some i => exact ⟨i, by simp [h1, h2, hs]⟩
        | none => exact ⟨0, by simp [h1, h2, hs]⟩
      · exact ⟨0, by simp [h1, h2]⟩
    · exact ⟨0, by simp [h1]⟩

/-- Membership form of `insert_new_drop`. -/
theorem insert_new_mem {s : ProcState} {ws : List Word} {w : Word}
    (h : w ∈ (insert s ws).new) : w ∈ staleFiltered s ws := by
  obtain ⟨k, hk⟩ := insert_new_drop s ws
  rw [hk] at h
  exact List.mem_of_mem_drop h

/-- A word surviving the stale filter started strictly after
`lastCommittedTime - 0.1`. -/
theorem staleFiltered_mem {s : ProcState} {ws : List Word} {w : Word}
    (h : w ∈ staleFiltered s ws) :
    w ∈ ws ∧ s.lastCommittedTime - 1/10 < w.start := by
  have := List.mem_filter.mp h
  exact ⟨this.1, by simpa using this.2⟩

/-- Full description of `_flush` in terms of the lock-step specification. -/
theorem flush_spec (t : ProcState) :
    (flush t).2 = agreeCommitSpec t.new t.buffer ∧
    (flush t).1.allCommitted = t.allCommitted ++ agreeCommitSpec t.new t.buffer ∧
    (flush t).1.committedInBuffer =
      t.committedInBuffer ++ agreeCommitSpec t.new t.buffer ∧
    (flush t).1.buffer = t.new.drop (agreeCommitSpec t.new t.buffer).length ∧
    (flush t).1.new = [] ∧
    (flush t).1.lastCommittedTime =
      (match (agreeCommitSpec t.new t.buffer).getLast? with
       | some w => w.end_ | none => t.lastCommittedTime) ∧
    (flush t).1.lastCommittedWord =
      (match (agreeCommitSpec t.new t.buffer).getLast? with
       | some w => some w.text | none => t.lastCommittedWord) := by
  have h := flushLoop_eq t.new t.buffer
  refine ⟨?_, ?_, ?_, ?_, ?_, ?_, ?_⟩ <;> simp [flush, h]

/-- `process` on a non-empty hypothesis is `_insert` followed by `_flush` on
the offset-shifted words. -/
theorem process_cons (s : ProcState) (c : Word) (cs : List Word) (off : ℚ) :
    process s (c :: cs) off =
      (buildResult (flush (insert s ((c :: cs).map (shiftWord off)))).1,
       (flush (insert s ((c :: cs).map (shiftWord off)))).1) := rfl

/-! ### Claim theorems -/

/-- C10: calling `process()` with an empty (or absent) hypothesis returns the
current `{committed, tentative}` texts and leaves every state field exactly as
before the call; the agreement pass is not run. -/
theorem process_empty_hypothesis_frame (s : ProcState) (off : ℚ) :
    (process s [] off).2 = s ∧ (process s [] off).1 = buildResult s :=
  ⟨rfl, rfl⟩

/-- C1: the agreement pass walks `buffer` and `pendingNew` from the front in
lock-step, committing while the front texts match case-insensitively, setting
`lastCommittedTime` to each committed word's `end` (so finally the last one's),
stopping at the first mismatch or exhaustion; and if `buffer` is empty when
`process()` is called, zero words are committed and `lastCommittedTime` is
unchanged, regardless of the hypothesis content. -/
theorem process_agreement_lockstep (s : ProcState) (chunks : List Word)
    (off : ℚ) (h : s.buffer = []) :
    ((process s chunks off).2.allCommitted = s.allCommitted ∧
     (process s chunks off).2.lastCommittedTime = s.lastCommittedTime) ∧
    ∀ t : ProcState,
      (flush t).2 = agreeCommitSpec t.new t.buffer ∧
      (flush t).1.allCommitted = t.allCommitted ++ agreeCommitSpec t.new t.buffer ∧
      (flush t).1.buffer = t.new.drop (agreeCommitSpec t.new t.buffer).length ∧
      (flush t).1.lastCommittedTime =
        (match (agreeCommitSpec t.new t.buffer).getLast? with
         | some w => w.end_ | none => t.lastCommittedTime) := by
  constructor
  · cases chunks with
    | nil => exact ⟨rfl, rfl⟩
    | cons c cs =>
      set s1 := insert s ((c :: cs).map (shiftWord off)) with hs1
      have hb : s1.buffer = [] := by rw [hs1]; exact (insert_frame s _).1.trans h
      have hempty : agreeCommitSpec s1.new s1.buffer = [] := by
        rw [hb]; simp [agreeCommitSpec]
      have hspec := flush_spec s1
      rw [process_cons]
      constructor
      · rw [hspec.2.1, hempty, List.append_nil, (insert_frame s _).2.1]
      · rw [hspec.2.2.2.2.2.1, hempty]
        exact (insert_frame s _).2.2.1
  · exact fun t =>
      ⟨(flush_spec t).1, (flush_spec t).2.1, (flush_spec t).2.2.2.1,
       (flush_spec t).2.2.2.2.2.1⟩

/-- Witness for C1 at a concrete input: a first call on a fresh processor
(empty `buffer`) commits nothing. -/
theorem process_agreement_lockstep_witness :
    (process resetState [⟨"hello", 0, 1⟩] 0).2.allCommitted =
      resetState.allCommitted :=
  ((process_agreement_lockstep resetState [⟨"hello", 0, 1⟩] 0 rfl).1).1

/-- C2: n-gram boundary de-duplication is attempted only when the filtered
hypothesis is non-empty and its first word starts within 1.0 s of
`lastCommittedTime`; it scans `i` ascending over
`1..min(len(committedTail), len(pendingNew), 5)`, comparing joined texts
case-insensitively, and on the first (smallest) matching `i` removes exactly
those `i` words from the front of `pendingNew` and stops, never preferring a
larger match. -/
theorem insert_ngram_dedup (s : ProcState) (ws : List Word) :
    (staleFiltered s ws = [] → (insert s ws).new = staleFiltered s ws) ∧
    (∀ w l, staleFiltered s ws = w :: l →
      ¬|w.start - s.lastCommittedTime| < 1 →
      (insert s ws).new = staleFiltered s ws) ∧
    (∀ w l, staleFiltered s ws = w :: l →
      |w.start - s.lastCommittedTime| < 1 →
      (∃ i, 1 ≤ i ∧
        i ≤ min (min s.committedInBuffer.length (staleFiltered s ws).length)
              MAX_NGRAM_SIZE ∧
        ngramMatchAt s.committedInBuffer (staleFiltered s ws) i = true ∧
        (∀ j, 1 ≤ j → j < i →
          ngramMatchAt s.committedInBuffer (staleFiltered s ws) j = false) ∧
        (insert s ws).new = (staleFiltered s ws).drop i) ∨
      ((∀ j, 1 ≤ j →
          j ≤ min (min s.committedInBuffer.length (staleFiltered s ws).length)
                MAX_NGRAM_SIZE →
          ngramMatchAt s.committedInBuffer (staleFiltered s ws) j = false) ∧
       (insert s ws).new = staleFiltered s ws)) := by
  refine ⟨?_, ?_, ?_⟩
  · intro hf
    simp [insert, hf]
  · intro w l hf hfar
    simp [insert, hf, hfar]
  · intro w l hf hnear
    rw [hf]
    by_cases h2 : 0 < s.committedInBuffer.length
    · have hIns : (insert s ws).new =
          (match ngramScan s.committedInBuffer (w :: l)
              (min (min s.committedInBuffer.length (w :: l).length)
                MAX_NGRAM_SIZE) with
           | some i => (w :: l).drop i
           | none => w :: l) := by
        simp only [insert, hf]
        rw [if_pos hnear, if_pos h2]
      cases hs : ngramScan s.committedInBuffer (w :: l)
          (min (min s.committedInBuffer.length (w :: l).length) MAX_NGRAM_SIZE) with
      | some i =>
        rw [hs] at hIns
        left
        unfold ngramScan at hs
        obtain ⟨hp, hi1, hi2, hmin⟩ := find?_range'_eq_some hs
        exact ⟨i, hi1, by omega, hp, fun j hj1 hj2 => hmin j hj1 hj2, hIns⟩
      | none =>
        rw [hs] at hIns
        right
        unfold ngramScan at hs
        exact ⟨fun j hj1 hj2 => find?_range'_eq_none hs j hj1 (by omega), hIns⟩
    · right
      have hcn : s.committedInBuffer.length = 0 := by omega
      refine ⟨fun j hj1 hj2 => ?_, by simp [insert, hf, hnear, h2]⟩
      rw [hcn] at hj2
      simp at hj2
      omega

/-- Witness for C2 at a concrete input: with `committedTail = ["today"]`,
`lastCommittedTime = 1.5` and a hypothesis restarting at 1.45 s, the 1-gram
match removes exactly the duplicated `"today"`. -/
theorem insert_ngram_dedup_witness :
    (insert
      { committedInBuffer := [⟨"today", 1, 3/2⟩], buffer := [], new := [],
        lastCommittedTime := 3/2, lastCommittedWord := some "today",
        allCommitted := [⟨"today", 1, 3/2⟩] }
      [⟨"today", 29/20, 19/10⟩, ⟨"is", 19/10, 23/10⟩]).new =
      [⟨"is", 19/10, 23/10⟩] := by
  have hf : staleFiltered
      { committedInBuffer := [⟨"today", 1, 3/2⟩], buffer := [], new := [],
        lastCommittedTime := 3/2, lastCommittedWord := some "today",
        allCommitted := [⟨"today", 1, 3/2⟩] }
      [⟨"today", 29/20, 19/10⟩, ⟨"is", 19/10, 23/10⟩] =
      ⟨"today", 29/20, 19/10⟩ :: [⟨"is", 19/10, 23/10⟩] := by
    norm_num [staleFiltered]
  have h := (insert_ngram_dedup
      { committedInBuffer := [⟨"today", 1, 3/2⟩], buffer := [], new := [],
        lastCommittedTime := 3/2, lastCommittedWord := some "today",
        allCommitted := [⟨"today", 1, 3/2⟩] }
      [⟨"today", 29/20, 19/10⟩, ⟨"is", 19/10, 23/10⟩]).2.2 _ _ hf
      (by rw [abs_lt]; constructor <;> norm_num)
  rw [hf] at h
  rcases h with ⟨i, hi1, hi2, _, _, hnew⟩ | ⟨hno, _⟩
  · have : i = 1 := by
      simp [MAX_NGRAM_SIZE] at hi2
      omega
    subst this
    simpa using hnew
  · exact absurd (hno 1 (by norm_num) (by simp [MAX_NGRAM_SIZE])) (by decide)

/-- C3 counterexample: even with well-formed words (`end ≥ start`),
`lastCommittedTime` can decrease across `process()` calls.  After committing
`"a"` (end 10) the buffer holds `"b"`@[10,11]; a third hypothesis re-emits
`"b"`@[9.95, 9.97], which survives the stale filter (9.95 > 10 − 0.1) and is
committed, moving `lastCommittedTime` from 10 down to 9.97. -/
theorem lastCommittedTime_decreases_counterexample :
    ((process (process (process resetState [⟨"a", 0, 10⟩] 0).2
          [⟨"a", 0, 10⟩, ⟨"b", 10, 11⟩] 0).2
        [⟨"b", 199/20, 997/100⟩] 0).2).lastCommittedTime <
      ((process (process resetState [⟨"a", 0, 10⟩] 0).2
          [⟨"a", 0, 10⟩, ⟨"b", 10, 11⟩] 0).2).lastCommittedTime ∧
    (∀ c ∈ [(⟨"b", 199/20, 997/100⟩ : Word)], c.start ≤ c.end_) := by
  constructor
  · norm_num [process, insert, staleFiltered, flush, flushLoop, resetState,
      shiftWord, ngramScan, ngramMatchAt, abs_lt, MAX_NGRAM_SIZE, jsToLower,
      joinText, joinSpace, List.range', List.find?]
  · intro c hc
    simp only [List.mem_singleton] at hc
    subst hc
    norm_num

/-- C3 (amended): `lastCommittedTime` is not monotone, but for hypotheses of
well-formed words (`start ≤ end`) it never drops to or below
`lastCommittedTime − 0.1`: every committed word survived the stale filter, so
its `end` (≥ its `start`) exceeds the pre-call frontier minus the 0.1 s
tolerance. -/
theorem lastCommittedTime_lower_bound (s : ProcState) (chunks : List Word)
    (off : ℚ) (hwf : ∀ c ∈ chunks, c.start ≤ c.end_) :
    s.lastCommittedTime - 1/10 < (process s chunks off).2.lastCommittedTime := by
  cases chunks with
  | nil =>
    simp only [process]
    linarith
  | cons c cs =>
    rw [process_cons]
    have hspec := flush_spec (insert s ((c :: cs).map (shiftWord off)))
    rw [hspec.2.2.2.2.2.1]
    cases hlast : (agreeCommitSpec (insert s ((c :: cs).map (shiftWord off))).new
        (insert s ((c :: cs).map (shiftWord off))).buffer).getLast? with
    | none =>
      simp only [hlast]
      rw [(insert_frame s _).2.2.1]
      linarith
    | some w =>
      simp only [hlast]
      have hw2 : w ∈ (insert s ((c :: cs).map (shiftWord off))).new :=
        agreeCommitSpec_mem (List.mem_of_getLast?_eq_some hlast)
      obtain ⟨hmem, hstart⟩ := staleFiltered_mem (insert_new_mem hw2)
      obtain ⟨c0, hc0, rfl⟩ := List.mem_map.mp hmem
      have hends : (shiftWord off c0).start ≤ (shiftWord off c0).end_ := by
        have := hwf c0 hc0
        simp only [shiftWord]
        linarith
      linarith

/-- Witness for C3 (amended) at a concrete input. -/
theorem lastCommittedTime_lower_bound_witness :
    (∀ c ∈ [(⟨"a", 0, 1⟩ : Word)], c.start ≤ c.end_) ∧
    resetState.lastCommittedTime - 1/10 <
      (process resetState [⟨"a", 0, 1⟩] 0).2.lastCommittedTime :=
  ⟨by intro c hc; simp only [List.mem_singleton] at hc; subst hc; norm_num,
   lastCommittedTime_lower_bound resetState [⟨"a", 0, 1⟩] 0
     (by intro c hc; simp only [List.mem_singleton] at hc; subst hc; norm_num)⟩

/-- Net effect of one block of `finalize()`. -/
theorem finalizeWords_eq (s : ProcState) (ws : List Word) :
    finalizeWords s ws =
      { s with
          allCommitted := s.allCommitted ++ ws
          committedInBuffer := s.committedInBuffer ++ ws
          lastCommittedTime :=
            (match ws.getLast? with
             | some w => w.end_ | none => s.lastCommittedTime)
          lastCommittedWord :=
            (match ws.getLast? with
             | some w => some w.text | none => s.lastCommittedWord) } := by
  cases hw : ws.getLast? with
  | none =>
    have : ws = [] := List.getLast?_eq_none_iff.mp hw
    subst this
    simp [finalizeWords]
  | some w => simp [finalizeWords, hw]

/-- Every operation only ever appends to `allCommitted`. -/
theorem applyOp_allCommitted (s : ProcState) (op : Op) :
    ∃ r, (applyOp s op).allCommitted = s.allCommitted ++ r := by
  cases op with
  | procOp chunks off =>
    cases chunks with
    | nil => exact ⟨[], by simp [applyOp, process]⟩
    | cons c cs =>
      refine ⟨agreeCommitSpec (insert s ((c :: cs).map (shiftWord off))).new
        (insert s ((c :: cs).map (shiftWord off))).buffer, ?_⟩
      show (flush (insert s ((c :: cs).map (shiftWord off)))).1.allCommitted = _
      rw [(flush_spec _).2.1, (insert_frame s _).2.1]
  | finOp =>
    exact ⟨s.buffer ++ s.new,
      by simp [applyOp, finalize, finalizeWords_eq, List.append_assoc]⟩
  | popOp t => exact ⟨[], by simp [applyOp, popCommitted]⟩

/-- C4: across every sequence of `process()`, `finalize()` and
`popCommitted()` calls, `allCommitted` is append-only: the old value is a
prefix of the new value, and every already-committed word keeps its
position. -/
theorem allCommitted_append_only (s : ProcState) (ops : List Op) :
    ∃ r, (runOps s ops).allCommitted = s.allCommitted ++ r ∧
      (runOps s ops).allCommitted.take s.allCommitted.length = s.allCommitted := by
  suffices h : ∃ r, (runOps s ops).allCommitted = s.allCommitted ++ r by
    obtain ⟨r, hr⟩ := h
    exact ⟨r, hr, by rw [hr]; exact List.take_left _ _⟩
  induction ops generalizing s with
  | nil => exact ⟨[], (List.append_nil _).symm⟩
  | cons op ops ih =>
    obtain ⟨r1, hr1⟩ := applyOp_allCommitted s op
    obtain ⟨r2, hr2⟩ := ih (applyOp s op)
    refine ⟨r1 ++ r2, ?_⟩
    have hstep : runOps s (op :: ops) = runOps (applyOp s op) ops := rfl
    rw [hstep, hr2, hr1, List.append_assoc]

/-- C5: `finalize()` moves every word left in `buffer`, then every word left
in `new`, into `allCommitted` in order with no agreement check, sets
`lastCommittedTime` to the last such word's `end` (unchanged when there is
none), leaves `buffer` and `new` empty, and a second `finalize()` changes no
state field and returns the same result. -/
theorem finalize_total_idempotent (s : ProcState) :
    (finalize s).2.allCommitted = s.allCommitted ++ s.buffer ++ s.new ∧
    (finalize s).2.buffer = [] ∧
    (finalize s).2.new = [] ∧
    (finalize s).2.lastCommittedTime =
      (match (s.buffer ++ s.new).getLast? with
       | some w => w.end_
       | none => s.lastCommittedTime) ∧
    (finalize (finalize s).2).2 = (finalize s).2 ∧
    (finalize (finalize s).2).1 = (finalize s).1 := by
  have hb : (finalize s).2.buffer = [] := by
    simp [finalize, finalizeWords_eq]
  have hn : (finalize s).2.new = [] := rfl
  have hidem : ∀ t : ProcState, t.buffer = [] → t.new = [] →
      (finalize t).2 = t := by
    intro t hbt hnt
    rcases t with ⟨cib, buf, nw, lct, lcw, ac⟩
    simp only at hbt hnt
    subst hbt; subst hnt
    simp [finalize, finalizeWords]
  refine ⟨?_, hb, hn, ?_, ?_, ?_⟩
  · simp [finalize, finalizeWords_eq, List.append_assoc]
  · cases hnw : s.new with
    | nil =>
      simp [finalize, finalizeWords_eq, hnw]
    | cons a l =>
      have h1 : (s.buffer ++ a :: l).getLast? = (a :: l).getLast? :=
        List.getLast?_append_of_ne_nil _ (by simp)
      cases hg : (a :: l).getLast? with
      | none => simp at hg
      | some w =>
        rw [h1, hg]
        simp [finalize, finalizeWords_eq, hnw, hg]
  · exact hidem _ hb hn
  · have h2 : (finalize (finalize s).2).2 = (finalize s).2 := hidem _ hb hn
    have h3 : ∀ t : ProcState, (finalize t).1 = buildResult (finalize t).2 := fun _ => rfl
    rw [h3, h2, h3]

/-- C6 counterexample: after a `process()` call that commits, `buffer` can
retain a word whose start (0.5) is far below the new `lastCommittedTime`
(10): the stale filter ran against the *pre-call* frontier only. -/
theorem buffer_below_frontier_counterexample :
    ((process (process resetState [⟨"a", 0, 10⟩] 0).2
        [⟨"a", 0, 10⟩, ⟨"b", 1/2, 3/5⟩] 0).2).lastCommittedTime = 10 ∧
    ((process (process resetState [⟨"a", 0, 10⟩] 0).2
        [⟨"a", 0, 10⟩, ⟨"b", 1/2, 3/5⟩] 0).2).buffer = [⟨"b", 1/2, 3/5⟩] ∧
    ((1:ℚ)/2) < 10 := by
  refine ⟨?_, ?_, by norm_num⟩ <;>
    norm_num [process, insert, staleFiltered, flush, flushLoop, resetState,
      shiftWord, ngramScan, ngramMatchAt, abs_lt, MAX_NGRAM_SIZE, jsToLower,
      joinText, joinSpace, List.range', List.find?]

/-- C6 (amended): after a `process()` call on a non-empty hypothesis, every
word retained in `buffer` has `start > lastCommittedTime_before_the_call −
0.1`; words below the *new* frontier can persist when commits in the same
call advance it past them. -/
theorem buffer_start_above_precall_frontier (s : ProcState) (chunks : List Word)
    (off : ℚ) (h : chunks ≠ []) :
    ∀ w ∈ (process s chunks off).2.buffer,
      s.lastCommittedTime - 1/10 < w.start := by
  cases chunks with
  | nil => exact absurd rfl h
  | cons c cs =>
    rw [process_cons]
    intro w hw
    rw [(flush_spec _).2.2.2.1] at hw
    exact (staleFiltered_mem (insert_new_mem (List.mem_of_mem_drop hw))).2

/-- Witness for C6 (amended): the single retained word of a first call
started above `0 − 0.1`. -/
theorem buffer_start_above_precall_frontier_witness :
    resetState.lastCommittedTime - 1/10 < (Word.mk "a" 0 1).start := by
  refine buffer_start_above_precall_frontier resetState [⟨"a", 0, 1⟩] 0
    (by simp) _ ?_
  norm_num [process, insert, staleFiltered, flush, flushLoop, resetState,
    shiftWord, abs_lt, MAX_NGRAM_SIZE]

set_option maxRecDepth 8000 in
/-- C7 counterexample: two identical 46-word hypotheses commit 46 words, and
`committedInBuffer` then holds all 46 — the timestamp-aware processor never
trims it to 45. -/
theorem committedTail_not_trimmed_counterexample :
    ((process (process resetState (List.replicate 46 ⟨"w", 0, 0⟩) 0).2
        (List.replicate 46 ⟨"w", 0, 0⟩) 0).2).committedInBuffer.length = 46 ∧
    ¬((process (process resetState (List.replicate 46 ⟨"w", 0, 0⟩) 0).2
        (List.replicate 46 ⟨"w", 0, 0⟩) 0).2).committedInBuffer.length ≤ 45 := by
  have h : ((process (process resetState (List.replicate 46 ⟨"w", 0, 0⟩) 0).2
      (List.replicate 46 ⟨"w", 0, 0⟩) 0).2).committedInBuffer.length = 46 := by
    norm_num [process, insert, staleFiltered, flush, flushLoop, resetState,
      shiftWord, ngramScan, ngramMatchAt, abs_lt, MAX_NGRAM_SIZE, jsToLower,
      joinText, joinSpace, List.range', List.find?, List.replicate]
  exact ⟨h, by rw [h]; omega⟩

/-- C7 (amended): the timestamp-aware `process()` only ever appends the
commit list to `committedInBuffer` (no trimming; only `popCommitted` removes
words); the 45-word lookback bound exists in the plain-text variant, whose
`_updateCommittedSuffix` always holds at most `SUFFIX_SIZE = 45` words. -/
theorem process_committedTail_untrimmed (s : ProcState) (chunks : List Word)
    (off : ℚ) :
    (∃ commit, (process s chunks off).2.committedInBuffer =
        s.committedInBuffer ++ commit) ∧
    (∀ text : String, (updateCommittedSuffix text).length ≤ SUFFIX_SIZE) := by
  constructor
  · cases chunks with
    | nil => exact ⟨[], by simp [process]⟩
    | cons c cs =>
      refine ⟨agreeCommitSpec (insert s ((c :: cs).map (shiftWord off))).new
        (insert s ((c :: cs).map (shiftWord off))).buffer, ?_⟩
      show (flush (insert s ((c :: cs).map (shiftWord off)))).1.committedInBuffer = _
      rw [(flush_spec _).2.2.1, (insert_frame s _).2.2.2]
  · intro text
    simp only [updateCommittedSuffix, List.length_drop]
    omega

/-- C8 counterexample: a malformed word with `end < start` is passed through
`process()` unchanged — `end` is not clamped to `max(end, start)`. -/
theorem no_end_clamping_counterexample :
    (process resetState [⟨"a", 5, 3⟩] 0).2.buffer = [⟨"a", 5, 3⟩] ∧
    ¬((3:ℚ) = max (3:ℚ) 5) := by
  constructor
  · norm_num [process, insert, staleFiltered, flush, flushLoop, resetState,
      shiftWord, abs_lt, MAX_NGRAM_SIZE]
  · norm_num

/-- C8 (amended): `process()` performs no defensive normalization of
malformed words: every word retained in `buffer` is an unmodified
offset-shift of an input word (in particular `end` stays below `start` if it
came in that way); the call itself always completes. -/
theorem process_no_normalization (s : ProcState) (chunks : List Word)
    (off : ℚ) (h : chunks ≠ []) :
    ((process s chunks off).2.buffer).Sublist (chunks.map (shiftWord off)) := by
  cases chunks with
  | nil => exact absurd rfl h
  | cons c cs =>
    rw [process_cons, (flush_spec _).2.2.2.1]
    obtain ⟨k, hk⟩ := insert_new_drop s ((c :: cs).map (shiftWord off))
    rw [hk]
    simp only [staleFiltered]
    exact (List.drop_sublist _ _).trans
      ((List.drop_sublist _ _).trans (List.filter_sublist _))

/-- Witness for C8 (amended) at the malformed input `("a", 5, 3)`. -/
theorem process_no_normalization_witness :
    ((process resetState [⟨"a", 5, 3⟩] 0).2.buffer).Sublist
      ([(⟨"a", 5, 3⟩ : Word)].map (shiftWord 0)) :=
  process_no_normalization resetState [⟨"a", 5, 3⟩] 0 (by simp)

/-- The head of `dropWhile` fails the predicate. -/
theorem dropWhile_head_not {p : Word → Bool} :
    ∀ (l : List Word) (w : Word), (l.dropWhile p).head? = some w → p w = false := by
  intro l
  induction l with
  | nil => intro w h; simp at h
  | cons a l ih =>
    intro w h
    rw [List.dropWhile_cons] at h
    by_cases hpa : p a = true
    · rw [if_pos hpa] at h
      exact ih w h
    · rw [if_neg (by simp [hpa])] at h
      simp only [List.head?_cons, Option.some.injEq] at h
      subst h
      simpa using hpa

/-- C9 (amended): `popCommitted(t)` removes the longest *prefix* of
`committedInBuffer` whose words all have `end ≤ t` (a word with `end ≤ t`
sitting behind one with `end > t` survives), and leaves `allCommitted`,
`buffer`, `new` and `lastCommittedTime` unchanged. -/
theorem popCommitted_spec (s : ProcState) (t : ℚ) :
    (∃ pre, s.committedInBuffer = pre ++ (popCommitted s t).committedInBuffer ∧
      (∀ w ∈ pre, w.end_ ≤ t) ∧
      (∀ w, (popCommitted s t).committedInBuffer.head? = some w →
        ¬w.end_ ≤ t)) ∧
    (popCommitted s t).allCommitted = s.allCommitted ∧
    (popCommitted s t).buffer = s.buffer ∧
    (popCommitted s t).new = s.new ∧
    (popCommitted s t).lastCommittedTime = s.lastCommittedTime := by
  refine ⟨⟨s.committedInBuffer.takeWhile (fun w => w.end_ ≤ t), ?_, ?_, ?_⟩,
    rfl, rfl, rfl, rfl⟩
  · exact (List.takeWhile_append_dropWhile _ _).symm
  · intro w hw
    simpa using List.mem_takeWhile_imp hw
  · intro w hw
    simpa using dropWhile_head_not s.committedInBuffer w hw

/-- C9 counterexample: in a reachable state whose cached committed words have
non-monotone `end` times (`"a"` ends at 10, then `"b"` ends at 9.97),
`popCommitted(9.97)` removes nothing, so the word `"b"` with `end ≤ 9.97`
remains in the cache — not "exactly the words with end ≤ t". -/
theorem popCommitted_not_exact_counterexample :
    (⟨"b", 199/20, 997/100⟩ : Word) ∈
      (popCommitted
        ((process (process (process resetState [⟨"a", 0, 10⟩] 0).2
            [⟨"a", 0, 10⟩, ⟨"b", 10, 11⟩] 0).2
          [⟨"b", 199/20, 997/100⟩] 0).2)
        (997/100)).committedInBuffer ∧
    ((997:ℚ)/100) ≤ 997/100 := by
  constructor
  · norm_num [process, insert, staleFiltered, flush, flushLoop, resetState,
      shiftWord, ngramScan, ngramMatchAt, abs_lt, MAX_NGRAM_SIZE, jsToLower,
      joinText, joinSpace, List.range', List.find?, popCommitted,
      List.dropWhile]
  · norm_num

end VoiceNotes
